import Mathlib

/-!
# x64dbg `_dbgfunctions.cpp`: a shallow embedding

The functions of `src/dbg/_dbgfunctions.cpp` that the specification talks about,
written as Lean functions, followed by theorems about them.

Conventions of the embedding.

* `duint` is the pointer-sized unsigned integer of the build.  Its width `w`
  (32 or 64) is a parameter; a `duint` value is a natural number below `2 ^ w`
  and every `duint` operation of the source is reduced modulo `2 ^ w`.
* A C loop whose exit is not evident from its header is run with fuel: one unit
  of fuel pays for one evaluation of the loop condition, and `none` means that
  the loop is still running when the fuel is spent.
* Functions of the debugger that `_dbgfunctions.cpp` only calls (`PatchGet` in
  `_patchinrange`, `ModSectionsFromAddr`, `ExHandlerGetSEH`, `MemRead`,
  `dbggetcmdline`, `dbglistprocesses`, `BridgeAlloc`) are parameters of the
  embedding.  The patch store that `PatchDelete` acts on is modelled from the
  specification.
* An output buffer reached through a C pointer is a function from the slot
  index to the slot content, a null pointer is `none`.
-/

namespace X64dbg

/-! ## Patches: `_patchget`, `_patchinrange`, `_patchrestorerange` -/

/-- Line 49: `_patchget(addr)` is `PatchGet(addr, nullptr)`. -/
def _patchget (PatchGet : Nat → Bool) (addr : Nat) : Bool :=
  PatchGet addr

/-- Lines 59-63, the loop `for(duint i = start; i <= end; i++)` of `_patchinrange`
started at `i`.  The increment is a `duint` increment. -/
def patchinrangeLoop (w : Nat) (PatchGet : Nat → Bool) (end_ : Nat) : Nat → Nat → Option Bool
  | 0, _ => none
  | fuel + 1, i =>
    if i ≤ end_ then
      if _patchget PatchGet i then some true
      else patchinrangeLoop w PatchGet end_ fuel ((i + 1) % 2 ^ w)
    else some false

/-- Lines 54-66: `_patchinrange(start, end)`. -/
def _patchinrange (w : Nat) (PatchGet : Nat → Bool) (start end_ : Nat) (fuel : Nat) :
    Option Bool :=
  if start > end_ then patchinrangeLoop w PatchGet start fuel end_
  else patchinrangeLoop w PatchGet end_ fuel start

/-- One record of the patch store: the byte that was in memory before the patch
and the byte the patch wrote. -/
structure PatchRecord where
  oldbyte : Nat
  newbyte : Nat
deriving DecidableEq, Repr

/-- What `_patchrestorerange` can be observed to call. -/
inductive Call where
  | PatchDelete (addr : Nat)
  | GuiUpdatePatches
deriving DecidableEq, Repr

/-- The part of the debugger that the patch functions act on: the patch store
(at most one record per address), the memory of the debuggee, and the calls
made so far, oldest first. -/
structure Debugger where
  patches : Nat → Option PatchRecord
  mem : Nat → Nat
  calls : List Call

/-- Modelled from the spec: `PatchGet` of `patches.cpp`, which is not among the
sources.  An address is patched when the store holds a record for it. -/
def PatchGet (d : Debugger) (addr : Nat) : Bool :=
  (d.patches addr).isSome

/-- Modelled from the spec: `PatchDelete(addr, true)` of `patches.cpp`, which is
not among the sources ("if patched, write back original byte, remove record;
false if address was not patched").  The call itself is recorded. -/
def PatchDelete (d : Debugger) (addr : Nat) : Bool × Debugger :=
  match d.patches addr with
  | some r =>
    (true,
      { patches := fun a => if a = addr then none else d.patches a
        mem := fun a => if a = addr then r.oldbyte else d.mem a
        calls := d.calls ++ [Call.PatchDelete addr] })
  | none => (false, { d with calls := d.calls ++ [Call.PatchDelete addr] })

/-- The notification `GuiUpdatePatches()`; the embedding records that it was sent. -/
def GuiUpdatePatches (d : Debugger) : Debugger :=
  { d with calls := d.calls ++ [Call.GuiUpdatePatches] }

/-- Lines 78-79, the loop `for(duint i = start; i <= end; i++) PatchDelete(i, true);`
of `_patchrestorerange` started at `i`. -/
def patchrestoreLoop (w : Nat) (end_ : Nat) : Nat → Nat → Debugger → Option Debugger
  | 0, _, _ => none
  | fuel + 1, i, d =>
    if i ≤ end_ then patchrestoreLoop w end_ fuel ((i + 1) % 2 ^ w) (PatchDelete d i).2
    else some d

/-- Lines 73-82: `_patchrestorerange(start, end)`. -/
def _patchrestorerange (w : Nat) (start end_ : Nat) (fuel : Nat) (d : Debugger) :
    Option Debugger :=
  let loop :=
    if start > end_ then patchrestoreLoop w start fuel end_ d
    else patchrestoreLoop w end_ fuel start d
  match loop with
  | some d' => some (GuiUpdatePatches d')
  | none => none

/-- The debugger state inside the loop of `_patchrestorerange` after `n` more
evaluations of the loop condition (or at the loop exit, when that comes first).
It is the state that `patchrestoreLoop` works on, kept observable for runs
that do not leave the loop. -/
def patchrestoreReached (w : Nat) (end_ : Nat) : Nat → Nat → Debugger → Debugger
  | 0, _, d => d
  | n + 1, i, d =>
    if i ≤ end_ then patchrestoreReached w end_ n ((i + 1) % 2 ^ w) (PatchDelete d i).2
    else d

/-- The state inside `_patchrestorerange(start, end)` after `n` evaluations of
the loop condition. -/
def _patchrestorerangeReached (w : Nat) (start end_ : Nat) (n : Nat) (d : Debugger) :
    Debugger :=
  if start > end_ then patchrestoreReached w start n end_ d
  else patchrestoreReached w end_ n start d

/-! ## Sections: `_sectionfromaddr` -/

/-- The conversion of a C `int` to `duint`: the value modulo `2 ^ w`. -/
def toDuint (w : Nat) (z : Int) : Nat :=
  (z % (2 : Int) ^ w).toNat

/-- The `int` expression `~(0x1000 - 1)`: the complement of a two's complement
`int` `z` is `-z - 1`. -/
def notPageOffset : Int :=
  -(0x1000 - 1) - 1

/-- Line 39, the right operand of `<`:
`cur.addr + (cur.size + (0x1000 - 1) & ~(0x1000 - 1))`.  In C `+` binds tighter
than `&`, both sums are `duint` sums, and the `int` mask is converted to `duint`
before the `&`. -/
def sectionEnd (w : Nat) (addr size : Nat) : Nat :=
  (addr + (((size + (0x1000 - 1)) % 2 ^ w) &&& toDuint w notPageOffset)) % 2 ^ w

/-- Line 39, the condition of the `if`, for a section at `base` of size `size`. -/
def sectionTest (w : Nat) (addr base size : Nat) : Bool :=
  decide (addr ≥ base) && decide (addr < sectionEnd w base size)

/-- The array overload `strcpy_s(dest, src)` of line 167, between two name
fields of the same declared size (`PROCESSENTRY32::szExeFile` and
`DBGPROCESSINFO::szExeFile`): a name that lies in the one fits the other, and the
destination ends up holding the source.  Names are C strings, kept as values. -/
def strcpy_s (_dest : String) (src : String) : String :=
  src

/-- The specification's `alignUp(size, 4096)`, over the natural numbers: the
least multiple of 4096 that is at least `size`. -/
def alignUp4096 (size : Nat) : Nat :=
  (size + 4095) / 4096 * 4096

/-! ## The SEH chain: `_getsehchain` -/

/-- One output record (declared in the bridge headers). -/
structure DBGSEHRECORD where
  addr : Nat
  handler : Nat
deriving DecidableEq, Repr

/-- The output structure: `total` and the pointer `records` (`none` is a pointer
that `_getsehchain` has not set to a buffer of its own). -/
structure DBGSEHCHAIN where
  total : Nat
  records : Option (Nat → DBGSEHRECORD)

/-- Lines 104-105, the body of the loop at index `i`: the store to
`records[i].addr`, then `MemRead(SEHList[i] + 4, &records[i].handler, sizeof(duint))`,
whose result the source does not look at.  `MemRead a` is the pointer-sized value
at `a`, or `none` when the read fails; a failed read is taken to leave its
destination as it was. -/
def sehBody (w : Nat) (MemRead : Nat → Option Nat) (SEHList : List Nat) (i : Nat)
    (records : Nat → DBGSEHRECORD) : Nat → DBGSEHRECORD :=
  let a := SEHList.getD i 0
  let records1 : Nat → DBGSEHRECORD :=
    fun j => if j = i then { records j with addr := a } else records j
  match MemRead ((a + 4) % 2 ^ w) with
  | some v => fun j => if j = i then { records1 j with handler := v } else records1 j
  | none => records1

/-- Lines 102-106, the loop `for(size_t i = 0; i < sehchain->total; i++)` with
`n` iterations left, at index `i`. -/
def sehLoop (w : Nat) (MemRead : Nat → Option Nat) (SEHList : List Nat) :
    Nat → Nat → (Nat → DBGSEHRECORD) → (Nat → DBGSEHRECORD)
  | 0, _, records => records
  | n + 1, i, records =>
    sehLoop w MemRead SEHList n (i + 1) (sehBody w MemRead SEHList i records)

/-- Lines 94-108: `_getsehchain(sehchain)`.  `ExHandlerGetSEH` is the list that
the call of that name fills, `BridgeAlloc` the buffer that the allocation
returns, with the content it has as allocated; the buffer is taken to have room
for `total` records. -/
def _getsehchain (w : Nat) (ExHandlerGetSEH : List Nat) (MemRead : Nat → Option Nat)
    (BridgeAlloc : Nat → DBGSEHRECORD) (sehchain : DBGSEHCHAIN) : DBGSEHCHAIN :=
  let SEHList := ExHandlerGetSEH
  let total := SEHList.length
  if total > 0 then
    { total := total
      records := some (sehLoop w MemRead SEHList total 0 BridgeAlloc) }
  else
    { sehchain with total := total }

/-! ## The command line: `_getcmdline` -/

/-- The `strlen` of a C string given by its characters (the bytes before the
terminator). -/
def strlen (s : List Nat) : Nat :=
  s.length

/-- The bytes `strcpy(dest, src)` stores: the characters and the terminator. -/
def strcpyBytes (src : List Nat) : List Nat :=
  src ++ [0]

/-- The destination after `strcpy(dest, src)`: the stored bytes, then what the
destination held beyond them. -/
def strcpy (dest : List Nat) (src : List Nat) : List Nat :=
  strcpyBytes src ++ dest.drop (strcpyBytes src).length

/-- What a call of `_getcmdline` leaves behind: the returned `bool`, the content
of the buffer `cmd_line` points to and of `*cbsize` (`none` for a null pointer),
and whether `dbggetcmdline` was called. -/
structure CmdlineOut where
  ret : Bool
  cmd_line : Option (List Nat)
  cbsize : Option Nat
  queried : Bool
deriving DecidableEq, Repr

/-- Lines 115-128: `_getcmdline(cmd_line, cbsize)`.  `dbggetcmdline` is `none`
when the call of that name fails and the command line it returns otherwise.
`strlen(cmdline) + sizeof(char)` is a `size_t` sum that cannot wrap: the string
and its terminator lie in the address space. -/
def _getcmdline (dbggetcmdline : Option (List Nat)) (cmd_line : Option (List Nat))
    (cbsize : Option Nat) : CmdlineOut :=
  if cmd_line.isNone && cbsize.isNone then
    { ret := false, cmd_line := cmd_line, cbsize := cbsize, queried := false }
  else
    match dbggetcmdline with
    | none => { ret := false, cmd_line := cmd_line, cbsize := cbsize, queried := true }
    | some cmdline =>
      if cmd_line.isNone && cbsize.isSome then
        { ret := true, cmd_line := cmd_line, cbsize := some (strlen cmdline + 1),
          queried := true }
      else
        match cmd_line with
        | some buf =>
          { ret := true, cmd_line := some (strcpy buf cmdline), cbsize := cbsize,
            queried := true }
        | none => { ret := true, cmd_line := cmd_line, cbsize := cbsize, queried := true }

/-! ## The process list: `_getprocesslist` -/

/-- The two fields of the Windows `PROCESSENTRY32` that the source reads. -/
structure PROCESSENTRY32 where
  th32ProcessID : Nat
  szExeFile : String
deriving DecidableEq, Repr

/-- One output entry (declared in the bridge headers). -/
structure DBGPROCESSINFO where
  dwProcessId : Nat
  szExeFile : String
deriving DecidableEq, Repr

/-- The conversion `(int)list.size()`: the low 32 bits, read as a two's
complement `int`. -/
def toInt32 (n : Nat) : Int :=
  Int.bmod n (2 ^ 32)

/-- What a call of `_getprocesslist` leaves behind: the returned `bool`, the
pointer `*entries` (`none` when it does not point to a buffer) and `*count`. -/
structure ProcessListOut where
  ret : Bool
  entries : Option (Nat → DBGPROCESSINFO)
  count : Int

/-- Lines 164-168, the loop `for(int i = 0; i < *count; i++)` with `n`
iterations left, at index `i`.  `list.at(i)` throws when `i` is not an index of
the list: the result is then `none`. -/
def processLoop (list : List PROCESSENTRY32) (count : Int) :
    Nat → Int → (Nat → DBGPROCESSINFO) → Option (Nat → DBGPROCESSINFO)
  | 0, _, entries => some entries
  | n + 1, i, entries =>
    match list.get? i.toNat with
    | none => none
    | some e =>
      let k := (count - i - 1).toNat
      processLoop list count n (i + 1)
        (fun j =>
          if j = k then
            { dwProcessId := e.th32ProcessID
              szExeFile := strcpy_s (entries j).szExeFile e.szExeFile }
          else entries j)

/-- Lines 155-170: `_getprocesslist(entries, count)`.  `dbglistprocesses` is
`none` when the call of that name fails and the list it fills otherwise,
`BridgeAlloc` the buffer that the allocation returns, `entries` and `count` what
the two pointers point to before the call; the buffer is taken to have room
for `*count` entries.  The result is `none` when `list.at` throws. -/
def _getprocesslist (dbglistprocesses : Option (List PROCESSENTRY32))
    (BridgeAlloc : Nat → DBGPROCESSINFO) (entries : Option (Nat → DBGPROCESSINFO))
    (count : Int) : Option ProcessListOut :=
  match dbglistprocesses with
  | none => some { ret := false, entries := entries, count := count }
  | some list =>
    let count := toInt32 list.length
    if count = 0 then
      some { ret := false, entries := entries, count := count }
    else
      match processLoop list count count.toNat 0 BridgeAlloc with
      | some filled => some { ret := true, entries := some filled, count := count }
      | none => none

/-- The entry `_getprocesslist` makes of a process. -/
def entryOf (e : PROCESSENTRY32) : DBGPROCESSINFO :=
  { dwProcessId := e.th32ProcessID, szExeFile := e.szExeFile }

/-! ## Inputs used in the worked examples -/

/-- A debugger state with one patch, at address 0. -/
def patchedAtZero : Debugger :=
  { patches := fun a => if a = 0 then some { oldbyte := 0x55, newbyte := 0x90 } else none
    mem := fun a => if a = 0 then 0x90 else 0
    calls := [] }

/-- A debugger state with one patch, at 0x401000. -/
def patchedInText : Debugger :=
  { patches := fun a => if a = 0x401000 then some { oldbyte := 0x55, newbyte := 0x90 } else none
    mem := fun a => if a = 0x401000 then 0x90 else 0
    calls := [] }

/-- A debuggee memory in which only the read at 0x2004 succeeds. -/
def readFailsAtHead : Nat → Option Nat :=
  fun a => if a = 0x2004 then some 0x401000 else none

/-- A buffer whose records are all zero. -/
def zeroedRecords : Nat → DBGSEHRECORD :=
  fun _ => { addr := 0, handler := 0 }

/-- A process list of three entries. -/
def threeProcesses : List PROCESSENTRY32 :=
  [ { th32ProcessID := 4, szExeFile := "System" },
    { th32ProcessID := 368, szExeFile := "smss.exe" },
    { th32ProcessID := 1204, szExeFile := "x32dbg.exe" } ]

/-- A buffer whose entries are all empty. -/
def emptyEntries : Nat → DBGPROCESSINFO :=
  fun _ => { dwProcessId := 0, szExeFile := "" }

/-! ### Lemmas on the two range loops -/

/-- When `end + 1` is still a `duint`, the loop of `_patchinrange` started at `i`
exits within `end + 1 - i` iterations and tells whether an address of `i .. end` is
patched. -/
theorem patchinrangeLoop_below_max (w : Nat) (G : Nat → Bool) (e : Nat) (he : e + 1 < 2 ^ w) :
    ∀ n i, i + n = e + 1 →
      ∃ b, patchinrangeLoop w G e (n + 1) i = some b ∧
        (b = true ↔ ∃ a, i ≤ a ∧ a ≤ e ∧ G a = true) := by
  intro n
  induction n with
  | zero =>
    intro i hi
    refine ⟨false, ?_, ?_⟩
    · simp only [patchinrangeLoop]
      rw [if_neg (by omega)]
    · constructor
      · intro h; cases h
      · rintro ⟨a, h1, h2, -⟩; omega
  | succ n ih =>
    intro i hi
    have hle : i ≤ e := by omega
    have hmod : (i + 1) % 2 ^ w = i + 1 := Nat.mod_eq_of_lt (by omega)
    by_cases hg : G i = true
    · refine ⟨true, ?_, ?_⟩
      · rw [patchinrangeLoop, if_pos hle, _patchget, if_pos hg]
      · exact ⟨fun _ => ⟨i, le_refl i, hle, hg⟩, fun _ => rfl⟩
    · obtain ⟨b, hb, hiff⟩ := ih (i + 1) (by omega)
      refine ⟨b, ?_, ?_⟩
      · rw [patchinrangeLoop, if_pos hle, _patchget, if_neg hg, hmod]
        exact hb
      · rw [hiff]
        constructor
        · rintro ⟨a, h1, h2, h3⟩
          exact ⟨a, by omega, h2, h3⟩
        · rintro ⟨a, h1, h2, h3⟩
          have hne : a ≠ i := by
            rintro rfl
            exact hg h3
          exact ⟨a, by omega, h2, h3⟩

/-- A result of the loop of `_patchinrange` does not change with more fuel. -/
theorem patchinrangeLoop_fuel_mono (w : Nat) (G : Nat → Bool) (e : Nat) :
    ∀ fuel i b, patchinrangeLoop w G e fuel i = some b →
      ∀ k, patchinrangeLoop w G e (fuel + k) i = some b := by
  intro fuel
  induction fuel with
  | zero => intro i b h; simp [patchinrangeLoop] at h
  | succ fuel ih =>
    intro i b h k
    rw [show fuel + 1 + k = (fuel + k) + 1 by omega]
    rw [patchinrangeLoop] at h ⊢
    by_cases hle : i ≤ e
    · rw [if_pos hle] at h ⊢
      by_cases hg : _patchget G i = true
      · rw [if_pos hg] at h ⊢; exact h
      · rw [if_neg hg] at h ⊢; exact ih _ _ h k
    · rw [if_neg hle] at h ⊢; exact h

/-- When `end` is the largest `duint` and no address is patched, the loop of
`_patchinrange` is still running after any number of steps. -/
theorem patchinrangeLoop_at_max (w : Nat) (G : Nat → Bool) (e : Nat) (he : 2 ^ w ≤ e + 1)
    (hG : ∀ a, a < 2 ^ w → G a = false) :
    ∀ fuel i, i < 2 ^ w → patchinrangeLoop w G e fuel i = none := by
  intro fuel
  induction fuel with
  | zero => intro i _; rfl
  | succ fuel ih =>
    intro i hi
    have hg : ¬ (_patchget G i = true) := by simp [_patchget, hG i hi]
    rw [patchinrangeLoop, if_pos (by omega), if_neg hg]
    exact ih _ (Nat.mod_lt _ (by positivity))

/-- The store after `PatchDelete(addr, true)`: the record of `addr` is gone, the
other records are as before. -/
theorem PatchDelete_patches (d : Debugger) (addr a : Nat) :
    (PatchDelete d addr).2.patches a = if a = addr then none else d.patches a := by
  unfold PatchDelete
  cases h : d.patches addr with
  | none =>
    by_cases ha : a = addr
    · subst ha; simp [h]
    · simp [ha]
  | some r => rfl

/-- The call `PatchDelete(addr, true)` is recorded once. -/
theorem PatchDelete_calls (d : Debugger) (addr : Nat) :
    (PatchDelete d addr).2.calls = d.calls ++ [Call.PatchDelete addr] := by
  unfold PatchDelete
  cases d.patches addr <;> rfl

/-- When `end + 1` is still a `duint`, the loop of `_patchrestorerange` started at
`i` exits after one `PatchDelete` per address of `i .. end`, in ascending order,
and leaves exactly the other addresses as they were. -/
theorem patchrestoreLoop_below_max (w : Nat) (e : Nat) (he : e + 1 < 2 ^ w) :
    ∀ n i d, i + n = e + 1 →
      ∃ d', patchrestoreLoop w e (n + 1) i d = some d' ∧
        (∀ a, d'.patches a = if i ≤ a ∧ a ≤ e then none else d.patches a) ∧
        d'.calls = d.calls ++ (List.range' i n).map Call.PatchDelete := by
  intro n
  induction n with
  | zero =>
    intro i d hi
    refine ⟨d, ?_, ?_, ?_⟩
    · simp only [patchrestoreLoop]
      rw [if_neg (by omega)]
    · intro a
      rw [if_neg (by omega)]
    · simp
  | succ n ih =>
    intro i d hi
    have hle : i ≤ e := by omega
    have hmod : (i + 1) % 2 ^ w = i + 1 := Nat.mod_eq_of_lt (by omega)
    obtain ⟨d', hd', hp, hc⟩ := ih (i + 1) (PatchDelete d i).2 (by omega)
    refine ⟨d', ?_, ?_, ?_⟩
    · rw [patchrestoreLoop, if_pos hle, hmod]
      exact hd'
    · intro a
      rw [hp a, PatchDelete_patches]
      by_cases h1 : i + 1 ≤ a ∧ a ≤ e
      · rw [if_pos h1, if_pos ⟨by omega, h1.2⟩]
      · rw [if_neg h1]
        by_cases h2 : a = i
        · rw [if_pos h2, if_pos ⟨by omega, by omega⟩]
        · rw [if_neg h2, if_neg (by omega)]
    · rw [hc, PatchDelete_calls, List.range'_succ, List.map_cons, List.append_assoc]
      rfl

/-- Whenever the loop of `_patchrestorerange` exits, all it has called is
`PatchDelete`. -/
theorem patchrestoreLoop_calls (w : Nat) (e : Nat) :
    ∀ fuel i d d', patchrestoreLoop w e fuel i d = some d' →
      ∃ addrs : List Nat, d'.calls = d.calls ++ addrs.map Call.PatchDelete := by
  intro fuel
  induction fuel with
  | zero => intro i d d' h; simp [patchrestoreLoop] at h
  | succ fuel ih =>
    intro i d d' h
    rw [patchrestoreLoop] at h
    by_cases hle : i ≤ e
    · rw [if_pos hle] at h
      obtain ⟨addrs, ha⟩ := ih _ _ _ h
      refine ⟨i :: addrs, ?_⟩
      rw [ha, PatchDelete_calls, List.map_cons, List.append_assoc]
      rfl
    · rw [if_neg hle] at h
      refine ⟨[], ?_⟩
      simp only [Option.some.injEq] at h
      simp [h]

/-- When `end` is the largest `duint`, the loop of `_patchrestorerange` is still
running after any number of steps. -/
theorem patchrestoreLoop_at_max (w : Nat) (e : Nat) (he : 2 ^ w ≤ e + 1) :
    ∀ fuel i d, i < 2 ^ w → patchrestoreLoop w e fuel i d = none := by
  intro fuel
  induction fuel with
  | zero => intro i d _; rfl
  | succ fuel ih =>
    intro i d hi
    rw [patchrestoreLoop, if_pos (by omega)]
    exact ih _ _ (Nat.mod_lt _ (by positivity))

/-- A result of the loop of `_patchrestorerange` does not change with more fuel. -/
theorem patchrestoreLoop_fuel_mono (w : Nat) (e : Nat) :
    ∀ fuel i d d', patchrestoreLoop w e fuel i d = some d' →
      ∀ k, patchrestoreLoop w e (fuel + k) i d = some d' := by
  intro fuel
  induction fuel with
  | zero => intro i d d' h; simp [patchrestoreLoop] at h
  | succ fuel ih =>
    intro i d d' h k
    rw [show fuel + 1 + k = (fuel + k) + 1 by omega]
    rw [patchrestoreLoop] at h ⊢
    by_cases hle : i ≤ e
    · rw [if_pos hle] at h ⊢; exact ih _ _ _ h k
    · rw [if_neg hle] at h ⊢; exact h

/-- When the loop of `_patchrestorerange` exits, `patchrestoreReached` is the
state it exits with. -/
theorem patchrestoreReached_of_loop (w : Nat) (e : Nat) :
    ∀ fuel i d d', patchrestoreLoop w e fuel i d = some d' →
      patchrestoreReached w e fuel i d = d' := by
  intro fuel
  induction fuel with
  | zero => intro i d d' h; simp [patchrestoreLoop] at h
  | succ fuel ih =>
    intro i d d' h
    rw [patchrestoreLoop] at h
    rw [patchrestoreReached]
    by_cases hle : i ≤ e
    · rw [if_pos hle] at h ⊢; exact ih _ _ _ h
    · rw [if_neg hle] at h ⊢; exact Option.some.inj h

/-- Swapping the two arguments of `_patchinrange` never changes the result. -/
theorem patchinrange_swap (w : Nat) (G : Nat → Bool) (start end_ fuel : Nat) :
    _patchinrange w G start end_ fuel = _patchinrange w G end_ start fuel := by
  unfold _patchinrange
  by_cases h1 : start > end_
  · rw [if_pos h1, if_neg (by omega)]
  · by_cases h2 : end_ > start
    · rw [if_neg h1, if_pos h2]
    · have : start = end_ := by omega
      subst this
      rfl

/-- Below the largest address `_patchinrange` decides whether the normalized
range holds a patched address, and does so within `max - min + 2` evaluations
of the loop condition. -/
theorem patchinrange_correct_below_max (w : Nat) (G : Nat → Bool) (start end_ : Nat)
    (hmax : max start end_ + 1 < 2 ^ w) (fuel : Nat)
    (hfuel : max start end_ - min start end_ + 2 ≤ fuel) :
    ∃ b, _patchinrange w G start end_ fuel = some b ∧
      (b = true ↔ ∃ a, min start end_ ≤ a ∧ a ≤ max start end_ ∧ G a = true) := by
  unfold _patchinrange
  by_cases h : start > end_
  · have hM : max start end_ = start := max_eq_left (by omega)
    have hm : min start end_ = end_ := min_eq_right (by omega)
    rw [hM, hm] at hfuel ⊢
    rw [hM] at hmax
    obtain ⟨b, hb, hiff⟩ :=
      patchinrangeLoop_below_max w G start hmax (start + 1 - end_) end_ (by omega)
    refine ⟨b, ?_, hiff⟩
    rw [if_pos h]
    have := patchinrangeLoop_fuel_mono w G start _ _ _ hb (fuel - (start + 1 - end_ + 1))
    rwa [show start + 1 - end_ + 1 + (fuel - (start + 1 - end_ + 1)) = fuel by omega] at this
  · have hM : max start end_ = end_ := max_eq_right (by omega)
    have hm : min start end_ = start := min_eq_left (by omega)
    rw [hM, hm] at hfuel ⊢
    rw [hM] at hmax
    obtain ⟨b, hb, hiff⟩ :=
      patchinrangeLoop_below_max w G end_ hmax (end_ + 1 - start) start (by omega)
    refine ⟨b, ?_, hiff⟩
    rw [if_neg h]
    have := patchinrangeLoop_fuel_mono w G end_ _ _ _ hb (fuel - (end_ + 1 - start + 1))
    rwa [show end_ + 1 - start + 1 + (fuel - (end_ + 1 - start + 1)) = fuel by omega] at this

/-- The specification's scenario: with 0x2000..0x2002 patched,
`_patchinrange(0x1F00, 0x2100)` is true and `_patchinrange(0x3000, 0x3100)` is false. -/
theorem patchinrange_scenario :
    _patchinrange 32 (fun a => decide (0x2000 ≤ a ∧ a ≤ 0x2002)) 0x1F00 0x2100 0x203 = some true ∧
    _patchinrange 32 (fun a => decide (0x2000 ≤ a ∧ a ≤ 0x2002)) 0x3000 0x3100 0x102 = some false := by
  constructor
  · obtain ⟨b, hb, hiff⟩ := patchinrange_correct_below_max 32
      (fun a => decide (0x2000 ≤ a ∧ a ≤ 0x2002)) 0x1F00 0x2100 (by decide) 0x203 (by decide)
    have : b = true := hiff.2 ⟨0x2000, by decide, by decide, by decide⟩
    rw [hb, this]
  · obtain ⟨b, hb, hiff⟩ := patchinrange_correct_below_max 32
      (fun a => decide (0x2000 ≤ a ∧ a ≤ 0x2002)) 0x3000 0x3100 (by decide) 0x102 (by decide)
    have : b = false := by
      cases b with
      | false => rfl
      | true =>
        obtain ⟨a, h1, h2, h3⟩ := hiff.1 rfl
        simp only [decide_eq_true_eq] at h3
        have h1' : 0x3000 ≤ a := by simpa using h1
        omega
    rw [hb, this]

/-- Below the largest address `_patchrestorerange` returns, having removed the
patches of the normalized range and no others, with one `PatchDelete` call per
address of the range, in ascending order, followed by the notification. -/
theorem patchrestorerange_correct_below_max (w : Nat) (start end_ : Nat) (d : Debugger)
    (hmax : max start end_ + 1 < 2 ^ w) (fuel : Nat)
    (hfuel : max start end_ - min start end_ + 2 ≤ fuel) :
    ∃ d', _patchrestorerange w start end_ fuel d = some d' ∧
      (∀ a, PatchGet d' a =
        if min start end_ ≤ a ∧ a ≤ max start end_ then false else PatchGet d a) ∧
      d'.calls = d.calls ++
        (List.range' (min start end_) (max start end_ - min start end_ + 1)).map
          Call.PatchDelete ++ [Call.GuiUpdatePatches] := by
  have key : ∀ lo hi, lo ≤ hi → hi + 1 < 2 ^ w → hi - lo + 2 ≤ fuel →
      ∃ d', (match patchrestoreLoop w hi fuel lo d with
              | some d' => some (GuiUpdatePatches d')
              | none => none) = some d' ∧
        (∀ a, PatchGet d' a = if lo ≤ a ∧ a ≤ hi then false else PatchGet d a) ∧
        d'.calls = d.calls ++ (List.range' lo (hi - lo + 1)).map Call.PatchDelete ++
          [Call.GuiUpdatePatches] := by
    intro lo hi hlh hhi hf
    obtain ⟨d1, h1, hp, hc⟩ := patchrestoreLoop_below_max w hi hhi (hi + 1 - lo) lo d (by omega)
    have h2 := patchrestoreLoop_fuel_mono w hi _ _ _ _ h1 (fuel - (hi + 1 - lo + 1))
    rw [show hi + 1 - lo + 1 + (fuel - (hi + 1 - lo + 1)) = fuel by omega] at h2
    refine ⟨GuiUpdatePatches d1, ?_, ?_, ?_⟩
    · rw [h2]
    · intro a
      show (d1.patches a).isSome = _
      rw [hp a]
      by_cases hr : lo ≤ a ∧ a ≤ hi
      · rw [if_pos hr, if_pos hr]; rfl
      · rw [if_neg hr, if_neg hr]; rfl
    · show d1.calls ++ [Call.GuiUpdatePatches] = _
      rw [hc, show hi + 1 - lo = hi - lo + 1 by omega]
  unfold _patchrestorerange
  by_cases h : start > end_
  · have hM : max start end_ = start := max_eq_left (by omega)
    have hm : min start end_ = end_ := min_eq_right (by omega)
    rw [hM, hm] at hfuel ⊢
    rw [hM] at hmax
    simp only [if_pos h]
    exact key end_ start (by omega) hmax hfuel
  · have hM : max start end_ = end_ := max_eq_right (by omega)
    have hm : min start end_ = start := min_eq_left (by omega)
    rw [hM, hm] at hfuel ⊢
    rw [hM] at hmax
    simp only [if_neg h]
    exact key start end_ (by omega) hmax hfuel

/-- When `end` is the largest `duint`, the loop of `_patchinrange` never returns
false. -/
theorem patchinrangeLoop_at_max_not_false (w : Nat) (G : Nat → Bool) (e : Nat)
    (he : 2 ^ w ≤ e + 1) :
    ∀ fuel i, i < 2 ^ w → patchinrangeLoop w G e fuel i ≠ some false := by
  intro fuel
  induction fuel with
  | zero => intro i _ h; simp [patchinrangeLoop] at h
  | succ fuel ih =>
    intro i hi
    rw [patchinrangeLoop, if_pos (by omega)]
    by_cases hg : _patchget G i = true
    · rw [if_pos hg]; simp
    · rw [if_neg hg]
      exact ih _ (Nat.mod_lt _ (by positivity))

/-- At the largest address the scan of `_patchinrange` goes on from address 0:
it returns true as soon as it meets a patched address, wherever that lies. -/
theorem patchinrangeLoop_at_max_finds (w : Nat) (G : Nat → Bool) (e p : Nat)
    (he : 2 ^ w ≤ e + 1) (hp : p < 2 ^ w) (hG : G p = true) :
    ∀ d i, i < 2 ^ w → (if i ≤ p then p - i else p + 2 ^ w - i) = d →
      patchinrangeLoop w G e (d + 1) i = some true := by
  intro d
  induction d with
  | zero =>
    intro i hi hd
    have hip : i = p := by
      by_cases h : i ≤ p
      · rw [if_pos h] at hd; omega
      · rw [if_neg h] at hd; omega
    subst hip
    rw [patchinrangeLoop, if_pos (by omega), _patchget, if_pos hG]
  | succ d ih =>
    intro i hi hd
    rw [patchinrangeLoop, if_pos (by omega)]
    by_cases hg : _patchget G i = true
    · rw [if_pos hg]
    · rw [if_neg hg]
      apply ih _ (Nat.mod_lt _ (by positivity))
      by_cases hlast : i + 1 = 2 ^ w
      · rw [hlast, Nat.mod_self, if_pos (Nat.zero_le _)]
        by_cases h : i ≤ p
        · rw [if_pos h] at hd; omega
        · rw [if_neg h] at hd; omega
      · rw [Nat.mod_eq_of_lt (by omega)]
        by_cases h : i ≤ p
        · rw [if_pos h] at hd
          rw [if_pos (by omega)]
          omega
        · rw [if_neg h] at hd
          rw [if_neg (by omega)]
          omega

/-- At the largest address the loop of `_patchrestorerange` deletes whatever
it passes: after `n` steps from `i` the addresses `i .. i + n - 1` hold no patch. -/
theorem patchrestoreReached_at_max (w : Nat) (e : Nat) (he : 2 ^ w ≤ e + 1) :
    ∀ n i d, i + n ≤ 2 ^ w → ∀ a,
      (patchrestoreReached w e n i d).patches a =
        if i ≤ a ∧ a < i + n then none else d.patches a := by
  intro n
  induction n with
  | zero =>
    intro i d _ a
    rw [patchrestoreReached, if_neg (by omega)]
  | succ n ih =>
    intro i d hin a
    rw [patchrestoreReached, if_pos (by omega)]
    by_cases hn : n = 0
    · subst hn
      rw [patchrestoreReached, PatchDelete_patches]
      by_cases ha : a = i
      · rw [if_pos ha, if_pos (by omega)]
      · rw [if_neg ha, if_neg (by omega)]
    · rw [Nat.mod_eq_of_lt (by omega), ih _ _ (by omega), PatchDelete_patches]
      by_cases h1 : i + 1 ≤ a ∧ a < i + 1 + n
      · rw [if_pos h1, if_pos (by omega)]
      · rw [if_neg h1]
        by_cases ha : a = i
        · rw [if_pos ha, if_pos (by omega)]
        · rw [if_neg ha, if_neg (by omega)]

/-- C1, failing input: on a 32-bit build, with the only patch at 0x401000,
`_patchinrange(0xFFFFFFFF, 0xFFFFFFFF)` returns true although no address of the
range is patched: after 0xFFFFFFFF the counter wraps to 0 and the scan goes on
to the patch.  With the patch at address 0 the same happens at the second
evaluation of the loop condition, and with no patch at all
`_patchinrange(0, 0xFFFFFFFF)` never returns. -/
theorem patchinrange_wraps_at_max :
    _patchinrange 32 (PatchGet patchedInText) 0xFFFFFFFF 0xFFFFFFFF 0x401002 = some true ∧
    (∀ a, 0xFFFFFFFF ≤ a → a ≤ 0xFFFFFFFF → PatchGet patchedInText a = false) ∧
    _patchinrange 32 (PatchGet patchedAtZero) 0xFFFFFFFF 0xFFFFFFFF 2 = some true ∧
    (∀ fuel, _patchinrange 32 (fun _ => false) 0 0xFFFFFFFF fuel = none) := by
  refine ⟨?_, ?_, by decide, ?_⟩
  · unfold _patchinrange
    rw [if_neg (by decide)]
    exact patchinrangeLoop_at_max_finds 32 _ 0xFFFFFFFF 0x401000 (by decide) (by decide)
      (by decide) 0x401001 0xFFFFFFFF (by decide) (by decide)
  · intro a h1 h2
    have ha : a = 0xFFFFFFFF := by omega
    subst ha
    decide
  · intro fuel
    unfold _patchinrange
    rw [if_neg (by decide)]
    exact patchinrangeLoop_at_max 32 _ _ (by decide) (fun _ _ => rfl) fuel 0 (by decide)

/-- C2, failing input: on a 32-bit build, with the only patch at 0x401000,
`_patchrestorerange(0xFFFFFFFF, 0xFFFFFFFF)` never returns, and on its way it
deletes the patch at 0x401000, an address outside the range: after 0xFFFFFFFF
the counter wraps to 0 and the loop goes on.  With the patch at address 0 the
patch is gone after the second evaluation of the loop condition. -/
theorem patchrestorerange_at_max_deletes_outside :
    (∀ fuel, _patchrestorerange 32 0xFFFFFFFF 0xFFFFFFFF fuel patchedInText = none) ∧
    PatchGet patchedInText 0x401000 = true ∧
    PatchGet (_patchrestorerangeReached 32 0xFFFFFFFF 0xFFFFFFFF 0x401002 patchedInText)
      0x401000 = false ∧
    PatchGet (_patchrestorerangeReached 32 0xFFFFFFFF 0xFFFFFFFF 2 patchedAtZero) 0 = false := by
  refine ⟨?_, by decide, ?_, by decide⟩
  · intro fuel
    unfold _patchrestorerange
    simp only [gt_iff_lt, lt_self_iff_false, if_false]
    rw [patchrestoreLoop_at_max 32 _ (by decide) fuel _ _ (by decide)]
  · unfold _patchrestorerangeReached
    rw [if_neg (by decide), show (0x401002 : Nat) = 0x401001 + 1 from rfl, patchrestoreReached,
      if_pos (by decide), show (0xFFFFFFFF + 1) % 2 ^ 32 = 0 from by decide]
    unfold PatchGet
    rw [patchrestoreReached_at_max 32 _ (by decide) _ _ _ (by decide), if_pos (by decide)]
    rfl

/-- C5, the range loops at the largest address: when one argument is
`2 ^ w - 1` the loop condition `i <= end` holds for every `duint` value of `i`,
so for every amount of fuel the loop of `_patchrestorerange` is still running,
in either order of the arguments, and so is the loop of `_patchinrange` when no
address is patched.  Neither loop is bounded by `max - min + 1` iterations
there. -/
theorem range_loops_never_exit_at_max (w start : Nat) (hs : start < 2 ^ w) (fuel : Nat) :
    (∀ d, _patchrestorerange w start (2 ^ w - 1) fuel d = none) ∧
    (∀ d, _patchrestorerange w (2 ^ w - 1) start fuel d = none) ∧
    (∀ G : Nat → Bool, (∀ a, a < 2 ^ w → G a = false) →
      _patchinrange w G start (2 ^ w - 1) fuel = none) := by
  have hpos : 0 < 2 ^ w := by positivity
  refine ⟨?_, ?_, ?_⟩
  · intro d
    unfold _patchrestorerange
    simp only [if_neg (show ¬ start > 2 ^ w - 1 by omega)]
    rw [patchrestoreLoop_at_max w _ (by omega) fuel _ _ hs]
  · intro d
    unfold _patchrestorerange
    by_cases h : 2 ^ w - 1 > start
    · simp only [if_pos h]
      rw [patchrestoreLoop_at_max w _ (by omega) fuel _ _ hs]
    · simp only [if_neg h]
      rw [patchrestoreLoop_at_max w _ (by omega) fuel _ _ (by omega)]
  · intro G hG
    unfold _patchinrange
    rw [if_neg (show ¬ start > 2 ^ w - 1 by omega)]
    exact patchinrangeLoop_at_max w G _ (by omega) hG fuel start hs

/-- The theorem `range_loops_never_exit_at_max` at `w = 32`, `start = 0`: after
1000 evaluations of the loop condition `_patchrestorerange(0, 0xFFFFFFFF)` has
not returned. -/
theorem range_loops_never_exit_at_max_witness :
    (0 : Nat) < 2 ^ 32 ∧ _patchrestorerange 32 0 (2 ^ 32 - 1) 1000 patchedAtZero = none :=
  ⟨by decide, (range_loops_never_exit_at_max 32 0 (by decide) 1000).1 patchedAtZero⟩

/-- C8, one notification per terminating call: whenever
`_patchrestorerange(start, end)` returns, the calls it has made are `PatchDelete`
calls followed by exactly one `GuiUpdatePatches`, which comes last; and every
call whose larger argument is below `2 ^ w - 1` does return, after one
`PatchDelete` per address of the normalized range, in ascending order, and the
one notification, whatever the range holds. -/
theorem patchrestorerange_one_notification (w start end_ : Nat) (d : Debugger) :
    (∀ fuel d', _patchrestorerange w start end_ fuel d = some d' →
      ∃ addrs : List Nat,
        d'.calls = d.calls ++ addrs.map Call.PatchDelete ++ [Call.GuiUpdatePatches] ∧
        (addrs.map Call.PatchDelete ++ [Call.GuiUpdatePatches]).count Call.GuiUpdatePatches = 1) ∧
    (max start end_ + 1 < 2 ^ w →
      ∃ d', _patchrestorerange w start end_ (max start end_ - min start end_ + 2) d = some d' ∧
        d'.calls = d.calls ++
          (List.range' (min start end_) (max start end_ - min start end_ + 1)).map
            Call.PatchDelete ++ [Call.GuiUpdatePatches]) := by
  constructor
  · intro fuel d' h
    have key : ∀ lo hi, (match patchrestoreLoop w hi fuel lo d with
              | some d' => some (GuiUpdatePatches d')
              | none => none) = some d' →
        ∃ addrs : List Nat,
          d'.calls = d.calls ++ addrs.map Call.PatchDelete ++ [Call.GuiUpdatePatches] := by
      intro lo hi h
      cases hl : patchrestoreLoop w hi fuel lo d with
      | none => rw [hl] at h; cases h
      | some d1 =>
        rw [hl] at h
        obtain ⟨addrs, ha⟩ := patchrestoreLoop_calls w hi fuel lo d d1 hl
        refine ⟨addrs, ?_⟩
        have : d' = GuiUpdatePatches d1 := (Option.some.inj h).symm
        rw [this]
        show d1.calls ++ [Call.GuiUpdatePatches] = _
        rw [ha]
    have key2 : ∀ addrs : List Nat,
        (addrs.map Call.PatchDelete ++ [Call.GuiUpdatePatches]).count Call.GuiUpdatePatches = 1 := by
      intro addrs
      induction addrs with
      | nil => rfl
      | cons a t ih =>
        rw [List.map_cons, List.cons_append, List.count_cons_of_ne (by simp)]
        exact ih
    unfold _patchrestorerange at h
    by_cases hs : start > end_
    · simp only [if_pos hs] at h
      obtain ⟨addrs, ha⟩ := key _ _ h
      exact ⟨addrs, ha, key2 addrs⟩
    · simp only [if_neg hs] at h
      obtain ⟨addrs, ha⟩ := key _ _ h
      exact ⟨addrs, ha, key2 addrs⟩
  · intro hmax
    obtain ⟨d', h1, -, h3⟩ :=
      patchrestorerange_correct_below_max w start end_ d hmax _ (le_refl _)
    exact ⟨d', h1, h3⟩

/-- The theorem `patchrestorerange_one_notification` at `start = 5`, `end = 3`
with no patch in the range: the call returns after three `PatchDelete` calls
and one notification. -/
theorem patchrestorerange_one_notification_witness :
    ∃ d', _patchrestorerange 32 5 3 (max 5 3 - min 5 3 + 2) patchedAtZero = some d' ∧
      d'.calls = patchedAtZero.calls ++
        (List.range' (min 5 3) (max 5 3 - min 5 3 + 1)).map Call.PatchDelete ++
          [Call.GuiUpdatePatches] :=
  (patchrestorerange_one_notification 32 5 3 patchedAtZero).2 (by decide)

/-! ### Sections -/

/-- The function `alignUp4096` gives the least multiple of 4096 that is at least
`size`. -/
theorem alignUp4096_least (size : Nat) :
    alignUp4096 size % 4096 = 0 ∧ size ≤ alignUp4096 size ∧
      ∀ m, m % 4096 = 0 → size ≤ m → alignUp4096 size ≤ m := by
  unfold alignUp4096
  refine ⟨by omega, by omega, ?_⟩
  intro m h1 h2
  omega

/-- The mask `~(0x1000 - 1)` as a `duint` of at least 12 bits is `2 ^ w - 4096`. -/
theorem toDuint_notPageOffset (w : Nat) (hw : 12 ≤ w) :
    toDuint w notPageOffset = 2 ^ w - 4096 := by
  obtain ⟨k, rfl⟩ : ∃ k, w = 12 + k := ⟨w - 12, by omega⟩
  have hpow : (2 : Nat) ^ (12 + k) = 4096 * 2 ^ k := by rw [pow_add]; norm_num
  have hk : 0 < 2 ^ k := by positivity
  unfold toDuint notPageOffset
  have h1 : ((2 : Int) ^ (12 + k)) = ((4096 * 2 ^ k : Nat) : Int) := by
    rw [← hpow]; push_cast; rfl
  rw [h1, hpow]
  have h2 : (-(4096 - 1) - 1 : Int) % ((4096 * 2 ^ k : Nat) : Int)
      = ((4096 * 2 ^ k - 4096 : Nat) : Int) := by
    have e : (-(4096 - 1) - 1 : Int)
        = ((4096 * 2 ^ k - 4096 : Nat) : Int) + (-1) * ((4096 * 2 ^ k : Nat) : Int) := by
      omega
    rw [e, Int.add_mul_emod_self, Int.emod_eq_of_lt] <;> omega
  rw [h2, Int.toNat_ofNat]

/-- The mask clears the low 12 bits of a `duint`. -/
theorem land_pageMask (w x : Nat) (hw : 12 ≤ w) (hx : x < 2 ^ w) :
    x &&& (2 ^ w - 4096) = x / 4096 * 4096 := by
  apply Nat.eq_of_testBit_eq
  intro i
  have h4095 : (4095 : Nat) < 2 ^ w :=
    lt_of_lt_of_le (by norm_num) (Nat.pow_le_pow_right (by norm_num) hw)
  have hmask : (2 ^ w - 4096 : Nat) = 2 ^ w - (4095 + 1) := rfl
  have h12 : (4095 : Nat) = 2 ^ 12 - 1 := by norm_num
  have hr : x / 4096 * 4096 = 2 ^ 12 * (x >>> 12) := by
    rw [Nat.shiftRight_eq_div_pow]
    norm_num
    omega
  rw [Nat.testBit_and, hmask, Nat.testBit_two_pow_sub_succ h4095, h12,
    Nat.testBit_two_pow_sub_one, hr, Nat.testBit_mul_pow_two, Nat.testBit_shiftRight]
  by_cases h1 : i < 12
  · simp [h1, Nat.not_le_of_lt h1]
  · have h1' : 12 ≤ i := by omega
    have e : 12 + (i - 12) = i := by omega
    by_cases h2 : i < w
    · simp [h1, h1', h2, e]
    · have : x.testBit i = false :=
        Nat.testBit_lt_two_pow (lt_of_lt_of_le hx (Nat.pow_le_pow_right (by norm_num) (by omega)))
      simp [h1, h1', h2, e, this]

/-- When `base + alignUp(size, 4096)` is below `2 ^ w`, neither sum of line 39
wraps and the right operand of `<` is `base + alignUp(size, 4096)`. -/
theorem sectionEnd_no_wrap (w base size : Nat) (hw : 12 ≤ w)
    (h : base + alignUp4096 size < 2 ^ w) :
    sectionEnd w base size = base + alignUp4096 size := by
  obtain ⟨k, rfl⟩ : ∃ k, w = 12 + k := ⟨w - 12, by omega⟩
  have hpow : (2 : Nat) ^ (12 + k) = 4096 * 2 ^ k := by rw [pow_add]; norm_num
  have hs : size + 4095 < 2 ^ (12 + k) := by
    rw [hpow] at h ⊢
    unfold alignUp4096 at h
    omega
  unfold sectionEnd
  rw [toDuint_notPageOffset _ hw]
  rw [show (0x1000 - 1 : Nat) = 4095 from rfl, Nat.mod_eq_of_lt hs, land_pageMask _ _ hw hs]
  exact Nat.mod_eq_of_lt h

/-- C7, counterexample: for a 32-bit `duint`, a section at base 0xFFFFF000 of
size 0x1000 and the address 0xFFFFF000, the test of line 39 is false (the sum
`base + 0x1000` wraps to 0), while over the integers
`base <= addr < base + alignUp(size, 4096)` holds. -/
theorem sectionTest_differs_when_wrapping :
    ¬ (sectionTest 32 0xFFFFF000 0xFFFFF000 0x1000 = true ↔
        0xFFFFF000 ≤ 0xFFFFF000 ∧ 0xFFFFF000 < 0xFFFFF000 + alignUp4096 0x1000) := by
  decide

/-- C7, amended: for a `duint` of at least 12 bits and every address, base and
size with `base + alignUp(size, 4096) < 2 ^ w`, the test of line 39, computed
with wrap-around arithmetic, holds exactly when
`base <= addr < base + alignUp(size, 4096)` over the integers, where
`alignUp(size, 4096)` is the least multiple of 4096 that is at least `size`
(`alignUp4096_least`). -/
theorem sectionTest_iff_aligned_range (w addr base size : Nat) (hw : 12 ≤ w)
    (h : base + alignUp4096 size < 2 ^ w) :
    sectionTest w addr base size = true ↔ base ≤ addr ∧ addr < base + alignUp4096 size := by
  unfold sectionTest
  rw [sectionEnd_no_wrap w base size hw h]
  simp

/-- The theorem `sectionTest_iff_aligned_range` for a 32-bit `duint`, a section at
0x401000 of size 0x234 and the address 0x401234. -/
theorem sectionTest_iff_aligned_range_witness :
    sectionTest 32 0x401234 0x401000 0x234 = true ↔
      0x401000 ≤ 0x401234 ∧ 0x401234 < 0x401000 + alignUp4096 0x234 :=
  sectionTest_iff_aligned_range 32 0x401234 0x401000 0x234 (by decide) (by decide)

/-- The buffer after the loop body at index `i`: slot `i` holds the chain address
and, when the read succeeded, the value read; the other slots are untouched. -/
theorem sehBody_apply (w : Nat) (M : Nat → Option Nat) (L : List Nat) (i : Nat)
    (r : Nat → DBGSEHRECORD) (j : Nat) :
    sehBody w M L i r j =
      if j = i then
        { addr := L.getD i 0, handler := (M ((L.getD i 0 + 4) % 2 ^ w)).getD (r i).handler }
      else r j := by
  unfold sehBody
  cases hM : M ((L.getD i 0 + 4) % 2 ^ w) with
  | none =>
    by_cases hj : j = i
    · subst hj; simp
    · simp [hj]
  | some v =>
    by_cases hj : j = i
    · subst hj; simp
    · simp [hj]

/-- The buffer after `n` iterations from index `i`: the slots `i .. i + n - 1` are
filled, the others untouched. -/
theorem sehLoop_apply (w : Nat) (M : Nat → Option Nat) (L : List Nat) :
    ∀ (n i : Nat) (r : Nat → DBGSEHRECORD) (j : Nat),
      sehLoop w M L n i r j =
        if i ≤ j ∧ j < i + n then
          { addr := L.getD j 0, handler := (M ((L.getD j 0 + 4) % 2 ^ w)).getD (r j).handler }
        else r j := by
  intro n
  induction n with
  | zero =>
    intro i r j
    rw [sehLoop, if_neg (by omega)]
  | succ n ih =>
    intro i r j
    rw [sehLoop, ih, sehBody_apply]
    by_cases h1 : i + 1 ≤ j ∧ j < i + 1 + n
    · rw [if_pos h1, if_neg (by omega), if_pos (by omega)]
    · rw [if_neg h1]
      by_cases h2 : j = i
      · subst h2
        rw [if_pos rfl, if_pos (by omega)]
      · rw [if_neg h2, if_neg (by omega)]

/-- C4, one record per chain element: `_getsehchain` sets `total` to the length
of the list `ExHandlerGetSEH` produced; for an empty list it leaves the pointer
`records` alone; otherwise `records` is a buffer in which, for every index `i`
of the list, `records[i].addr` is `L[i]` and `records[i].handler` is the value
that `MemRead` reads at the `duint` address `L[i] + 4` (which is `L[i] + 4` itself
when that is below `2 ^ w`).  The addresses of the records, in order, are the
list itself, and no slot beyond `total` is written. -/
theorem getsehchain_records (w : Nat) (L : List Nat) (MemRead : Nat → Option Nat)
    (alloc : Nat → DBGSEHRECORD) (sehchain : DBGSEHCHAIN) :
    (_getsehchain w L MemRead alloc sehchain).total = L.length ∧
    (L = [] → (_getsehchain w L MemRead alloc sehchain).records = sehchain.records) ∧
    (L ≠ [] → ∃ records : Nat → DBGSEHRECORD,
      (_getsehchain w L MemRead alloc sehchain).records = some records ∧
      (∀ (i a : Nat), L[i]? = some a →
        (records i).addr = a ∧
        (∀ v, MemRead ((a + 4) % 2 ^ w) = some v → (records i).handler = v) ∧
        (a + 4 < 2 ^ w → ∀ v, MemRead (a + 4) = some v → (records i).handler = v)) ∧
      (List.range L.length).map (fun i => (records i).addr) = L ∧
      (∀ i, L.length ≤ i → records i = alloc i)) := by
  refine ⟨?_, ?_, ?_⟩
  · unfold _getsehchain
    by_cases h : L.length > 0
    · simp only [if_pos h]
    · simp only [if_neg h]
  · intro h
    subst h
    rfl
  · intro h
    have hpos : L.length > 0 := List.length_pos.2 h
    refine ⟨sehLoop w MemRead L L.length 0 alloc, ?_, ?_, ?_, ?_⟩
    · unfold _getsehchain
      simp only [if_pos hpos]
    · intro i a hi
      obtain ⟨hlt, hget⟩ := List.getElem?_eq_some.1 hi
      have hD : L.getD i 0 = a := by
        rw [List.getD_eq_getElem?_getD, hi]; rfl
      rw [sehLoop_apply, if_pos (by omega), hD]
      refine ⟨rfl, ?_, ?_⟩
      · intro v hv
        simp [hv]
      · intro hlt' v hv
        rw [Nat.mod_eq_of_lt hlt']
        simp [hv]
    · apply List.ext_getElem
      · simp
      · intro i h1 h2
        simp only [List.getElem_map, List.getElem_range]
        rw [sehLoop_apply, if_pos (by omega)]
        show L.getD i 0 = L[i]
        rw [List.getD_eq_getElem?_getD, List.getElem?_eq_getElem h2]; rfl
    · intro i hi
      rw [sehLoop_apply, if_neg (by omega)]

/-- The theorem `getsehchain_records` on the chain `[0x1000, 0x2000]` with the
handler 0x401000 stored at 0x2004. -/
theorem getsehchain_records_witness :
    ∃ records : Nat → DBGSEHRECORD,
      (_getsehchain 32 [0x1000, 0x2000] readFailsAtHead zeroedRecords
        { total := 0, records := none }).records = some records ∧
      (records 1).addr = 0x2000 ∧ (records 1).handler = 0x401000 := by
  obtain ⟨records, h1, h2, -⟩ :=
    (getsehchain_records 32 [0x1000, 0x2000] readFailsAtHead zeroedRecords
      { total := 0, records := none }).2.2 (by decide)
  exact ⟨records, h1, (h2 1 0x2000 rfl).1, (h2 1 0x2000 rfl).2.1 0x401000 (by decide)⟩

/-- C10, size then fill: for a command line `c` that `dbggetcmdline` returns, the
size query (`cmd_line` null, `cbsize` not null) returns true and sets `*cbsize`
to `length c + 1`; the fill call (`cmd_line` not null) returns true, stores the
characters of `c` and the terminator, `length c + 1` bytes, at the start of the
buffer and leaves `*cbsize` as it was; with both pointers null the call returns
false without calling `dbggetcmdline`; and when `dbggetcmdline` fails the call
returns false and writes nothing. -/
theorem getcmdline_size_then_fill (c buf : List Nat) (n0 : Nat) (cb : Option Nat)
    (g : Option (List Nat)) (p : Option (List Nat)) :
    _getcmdline (some c) none (some n0) =
      { ret := true, cmd_line := none, cbsize := some (c.length + 1), queried := true } ∧
    _getcmdline (some c) (some buf) cb =
      { ret := true, cmd_line := some (strcpyBytes c ++ buf.drop (c.length + 1)),
        cbsize := cb, queried := true } ∧
    (strcpyBytes c).length = c.length + 1 ∧
    _getcmdline g none none =
      { ret := false, cmd_line := none, cbsize := none, queried := false } ∧
    ((_getcmdline none p cb).ret = false ∧ (_getcmdline none p cb).cmd_line = p ∧
      (_getcmdline none p cb).cbsize = cb) := by
  refine ⟨?_, ?_, ?_, ?_, ?_⟩
  · simp [_getcmdline, strlen]
  · simp [_getcmdline, strcpy, strcpyBytes]
  · simp [strcpyBytes]
  · simp [_getcmdline]
  · unfold _getcmdline
    by_cases h : (p.isNone && cb.isNone) = true
    · simp only [if_pos h, and_self]
    · simp only [if_neg h, and_self]

/-! ### The process list -/

/-- The conversion to `int` keeps a length below `2 ^ 31`. -/
theorem toInt32_of_lt (n : Nat) (h : n < 2 ^ 31) : toInt32 n = (n : Int) := by
  unfold toInt32 Int.bmod
  norm_num at h ⊢
  omega

/-- The loop of `_getprocesslist` with `n` iterations left at index `i` does not
throw, stores every process `P[j]`, `i <= j`, in slot `length - 1 - j` and leaves
the slots from `n` on untouched. -/
theorem processLoop_spec (P : List PROCESSENTRY32) :
    ∀ (n i : Nat) (entries : Nat → DBGPROCESSINFO), i + n = P.length →
      ∃ filled, processLoop P (P.length : Int) n (i : Int) entries = some filled ∧
        (∀ (j : Nat) (e : PROCESSENTRY32), i ≤ j → P[j]? = some e →
          filled (P.length - 1 - j) = entryOf e) ∧
        (∀ k, n ≤ k → filled k = entries k) := by
  intro n
  induction n with
  | zero =>
    intro i entries hi
    refine ⟨entries, rfl, ?_, fun _ _ => rfl⟩
    intro j e hj he
    obtain ⟨hlt, -⟩ := List.getElem?_eq_some.1 he
    omega
  | succ n ih =>
    intro i entries hi
    have hlt : i < P.length := by omega
    have hget : P.get? (i : Int).toNat = some P[i] := by
      rw [Int.toNat_ofNat, List.get?_eq_getElem?, List.getElem?_eq_getElem hlt]
    have hk : ((P.length : Int) - (i : Int) - 1).toNat = P.length - 1 - i := by omega
    obtain ⟨filled, hf, h1, h2⟩ := ih (i + 1)
      (fun j =>
        if j = P.length - 1 - i then
          { dwProcessId := P[i].th32ProcessID
            szExeFile := strcpy_s (entries j).szExeFile P[i].szExeFile }
        else entries j) (by omega)
    refine ⟨filled, ?_, ?_, ?_⟩
    · rw [processLoop, hget]
      simp only [hk]
      exact_mod_cast hf
    · intro j e hj he
      by_cases hji : j = i
      · subst hji
        rw [h2 _ (by omega), if_pos rfl]
        have : P[j] = e := by
          rw [List.getElem?_eq_getElem hlt] at he
          exact Option.some.inj he
        rw [this]
        rfl
      · exact h1 j e (by omega) he
    · intro k hk'
      rw [h2 k (by omega), if_neg (by omega)]

/-- C9, amended: for a process list `P` of fewer than `2 ^ 31` entries that
`dbglistprocesses` returns, `_getprocesslist` sets `*count` to the length of
`P`; when `P` is not empty it returns true and the output array is the reversal
of `P` (slot `count - 1 - i` holds the process id and the executable name of
`P[i]`); it returns false, leaving `*entries` alone, when `P` is empty and when
`dbglistprocesses` fails (then `*count` is left alone too). -/
theorem getprocesslist_reverses (P : List PROCESSENTRY32) (hP : P.length < 2 ^ 31)
    (alloc : Nat → DBGPROCESSINFO) (entries : Option (Nat → DBGPROCESSINFO)) (count : Int) :
    (P ≠ [] → ∃ filled : Nat → DBGPROCESSINFO,
      _getprocesslist (some P) alloc entries count =
        some { ret := true, entries := some filled, count := (P.length : Int) } ∧
      (∀ (i : Nat) (e : PROCESSENTRY32), P[i]? = some e →
        filled (P.length - 1 - i) = entryOf e) ∧
      (List.range P.length).map filled = (P.map entryOf).reverse) ∧
    (P = [] → _getprocesslist (some P) alloc entries count =
      some { ret := false, entries := entries, count := (P.length : Int) }) ∧
    _getprocesslist none alloc entries count =
      some { ret := false, entries := entries, count := count } := by
  refine ⟨?_, ?_, rfl⟩
  · intro hne
    have hpos : 0 < P.length := List.length_pos.2 hne
    obtain ⟨filled, hf, h1, -⟩ := processLoop_spec P P.length 0 alloc (by omega)
    refine ⟨filled, ?_, fun i e he => h1 i e (Nat.zero_le _) he, ?_⟩
    · unfold _getprocesslist
      simp only [toInt32_of_lt _ hP]
      rw [if_neg (by omega)]
      simp only [Int.toNat_ofNat]
      have hf' : processLoop P (P.length : Int) P.length 0 alloc = some filled := by
        exact_mod_cast hf
      rw [hf']
    · apply List.ext_getElem
      · simp
      · intro i hi1 hi2
        have hi : i < P.length := by simpa using hi1
        simp only [List.getElem_map, List.getElem_range, List.getElem_reverse, List.length_map]
        have := h1 (P.length - 1 - i) P[P.length - 1 - i] (Nat.zero_le _)
          (List.getElem?_eq_getElem (by omega))
        rw [show P.length - 1 - (P.length - 1 - i) = i by omega] at this
        exact this
  · intro h
    subst h
    rfl

/-- C9, counterexample: for a list of `2 ^ 32` processes (a 64-bit build, where
`list.size()` has 64 bits), `(int)list.size()` is 0, so `_getprocesslist` sets
`*count` to 0, which is not the length of the list, and returns false although
the list is not empty. -/
theorem getprocesslist_count_truncated :
    List.replicate (2 ^ 32) (PROCESSENTRY32.mk 4 "System") ≠ [] ∧
    ∃ out, _getprocesslist (some (List.replicate (2 ^ 32) (PROCESSENTRY32.mk 4 "System")))
        emptyEntries none 0 = some out ∧
      out.ret = false ∧ out.count = 0 ∧
      out.count ≠ ((List.replicate (2 ^ 32) (PROCESSENTRY32.mk 4 "System")).length : Int) := by
  constructor
  · intro h
    have h2 := congrArg List.length h
    rw [List.length_replicate] at h2
    exact absurd h2 (by decide)
  · have h0 : toInt32 (2 ^ 32) = 0 := by decide
    refine ⟨{ ret := false, entries := none, count := 0 }, ?_, rfl, rfl, ?_⟩
    · unfold _getprocesslist
      simp only [List.length_replicate, h0, if_true]
    · rw [List.length_replicate]
      decide

/-- The theorem `getprocesslist_reverses` on a list of three processes. -/
theorem getprocesslist_reverses_witness :
    ∃ filled : Nat → DBGPROCESSINFO,
      _getprocesslist (some threeProcesses) emptyEntries none 0 =
        some { ret := true, entries := some filled, count := (threeProcesses.length : Int) } ∧
      (List.range threeProcesses.length).map filled = (threeProcesses.map entryOf).reverse := by
  obtain ⟨filled, h1, -, h3⟩ :=
    (getprocesslist_reverses threeProcesses (by decide) emptyEntries none 0).1 (by decide)
  exact ⟨filled, h1, h3⟩

end X64dbg
